import Mathlib

/-!
Verification of the SuperLRU cache (`src/index.ts`).

The development shallowly embeds the cache: JavaScript values that can be
stored in the cache are modelled by `Value` (a string, a number, or a
structured object with payload type `O`); the `Map` is an association list
`cache`; the doubly-linked recency list is modelled by the list `order` of
keys from head (most recently used) to tail (least recently used), which is
exactly the sequence abstraction the pointer operations `_addNode`,
`_removeNode`, `_moveToHead` and `_popTail` maintain (node identity
coincides with key identity because the map holds at most one node per
key).  External library functions consumed by the code — JSON.stringify /
JSON.parse, zlib gzip/gunzip, base64 encoding, the block cipher obtained
from `crypto.createCipheriv`, and md5 — are parameters collected in `Ext`;
theorems that depend on their behaviour take their documented round-trip
laws as hypotheses.  Eviction-callback invocations are recorded in the
event log `evts`; the Redis mirror, when configured, is an association
list of hashed keys to stored text.
-/

namespace SuperLRU

/-- JavaScript `typeof` classification of a cacheable value. -/
inductive TypeTag where
  | string : TypeTag
  | number : TypeTag
  | object : TypeTag
deriving DecidableEq

/-- Model of the JS value universe for cache values: a string, a number, or
a structured object whose shape is abstracted by the payload type `O`. -/
inductive Value (O : Type) where
  | VStr : String → Value O
  | VNum : Int → Value O
  | VObj : O → Value O
deriving DecidableEq

/-- The `typeof` tag of a value. -/
def Value.jsType {O : Type} : Value O → TypeTag
  | .VStr _ => .string
  | .VNum _ => .number
  | .VObj _ => .object

/-- Whether the runtime value is a string (`typeof value === 'string'`). -/
def Value.isStr {O : Type} : Value O → Bool
  | .VStr _ => true
  | _ => false

/-- The string payload of a string value (only used under `isStr`). -/
def Value.strOf {O : Type} : Value O → String
  | .VStr s => s
  | _ => ""

/-- `EncryptionConfig` from the source: algorithm id plus key material
(buffers modelled as byte lists). -/
structure EncryptionConfig where
  algo : String
  initVector : List Nat
  securityKey : List Nat
deriving DecidableEq

/-- External runtime/library functions the code calls, as parameters:
`strRepr`/`numRepr`/`objRepr` are JSON.stringify restricted to each value
classification (for finite numbers `Number.toString` agrees with
JSON.stringify, which the source relies on), `jparse` is JSON.parse,
`gzipF`/`gunzipF` are zlib gzip/gunzip, `b64e`/`b64d` convert between raw
bytes and base64 text, `cipherOf`/`decipherOf` are the cipher and decipher
obtained from `crypto.createCipheriv`/`createDecipheriv` for given
material, and `md5F` is the md5 hex digest of a key. -/
structure Ext (K O : Type) where
  strRepr : String → String
  numRepr : Int → String
  objRepr : O → String
  jparse : String → Value O
  gzipF : String → String
  gunzipF : String → String
  b64e : String → String
  b64d : String → String
  cipherOf : EncryptionConfig → String → String
  decipherOf : EncryptionConfig → String → String
  md5F : K → String

/-- `JSON.stringify` on the value universe, assembled from the per
classification serializers. -/
def jsonStringify {K O : Type} (E : Ext K O) : Value O → String
  | .VStr s => E.strRepr s
  | .VNum n => E.numRepr n
  | .VObj o => E.objRepr o

/-- `compressValue` from the source:
`zlib.gzipSync(JSON.stringify(value)).toString('base64')`. -/
def compressValue {K O : Type} (E : Ext K O) (value : Value O) : String :=
  E.b64e (E.gzipF (jsonStringify E value))

/-- `decompressValue` from the source: base64 decode then gunzip. -/
def decompressValue {K O : Type} (E : Ext K O) (value : String) : String :=
  E.gunzipF (E.b64d value)

/-- `encryptValue` from the source: serialize the value according to its
`typeof` (JSON.stringify for objects, `toString` for numbers, the raw
string otherwise), encipher it, and return the ciphertext together with
the `typeof` tag. -/
def encryptValue {K O : Type} (E : Ext K O) (value : Value O)
    (encryption : EncryptionConfig) : String × TypeTag :=
  (E.cipherOf encryption
    (match value with
      | .VObj _ => jsonStringify E value
      | .VNum n => E.numRepr n
      | .VStr s => s),
   value.jsType)

/-- `decryptValue` from the source: decipher, then JSON.parse when the
recorded type is `number` or `object`, otherwise return the string
(`this.valueType` may be null, modelled by `Option`). -/
def decryptValue {K O : Type} (E : Ext K O) (value : String)
    (ty : Option TypeTag) (encryption : EncryptionConfig) : Value O :=
  let decrypted := E.decipherOf encryption value
  match ty with
  | some .number => E.jparse decrypted
  | some .object => E.jparse decrypted
  | _ => Value.VStr decrypted

section AssocList

variable {K : Type} {α : Type} [DecidableEq K]

/-- Lookup in an association list (JS `Map.get`). -/
def alookup (k : K) : List (K × α) → Option α
  | [] => none
  | (k', v) :: rest => if k' = k then some v else alookup k rest

/-- Insert/overwrite in an association list (JS `Map.set`): replaces in
place when the key is present, otherwise appends in insertion order. -/
def aset (k : K) (v : α) : List (K × α) → List (K × α)
  | [] => [(k, v)]
  | (k', v') :: rest =>
    if k' = k then (k, v) :: rest else (k', v') :: aset k v rest

/-- Deletion from an association list (JS `Map.delete`). -/
def adel (k : K) : List (K × α) → List (K × α)
  | [] => []
  | (k', v') :: rest => if k' = k then rest else (k', v') :: adel k rest

/-- The keys of an association list, in order. -/
def akeys (l : List (K × α)) : List K := l.map Prod.fst

end AssocList

/-- A cache node (`ListNode` minus its links, which the `order` list of the
state carries): the stored value after the enabled transforms, and the
last-access timestamp. -/
structure Node (O : Type) where
  storedValue : Value O
  timestamp : Nat
deriving DecidableEq

/-- The state of a `SuperLRU` instance.  `order` lists keys from head
(most recently used) to tail (least recently used); `evts` logs the
`onEvicted` callback invocations, most recent first; `redis` is the
mirrored store when a Redis client is configured; `now` is the ambient
clock read by `Date.now()`. -/
structure LRU (K O : Type) where
  cache : List (K × Node O)
  order : List K
  capacity : Int
  size : Nat
  hits : Nat
  misses : Nat
  compress : Bool
  encrypt : Bool
  valueType : Option TypeTag
  hasOnEvicted : Bool
  evts : List (K × Value O)
  writeThrough : Bool
  redis : Option (List (String × String))
  encryption : EncryptionConfig
  now : Nat
deriving DecidableEq

variable {K O : Type} [DecidableEq K]

/-- `valueIn` from the source: apply encryption and/or compression,
capturing the value-type tag on first use; returns the processed value and
the updated instance state (only `valueType` can change). -/
def valueIn (E : Ext K O) (value : Value O) (s : LRU K O) :
    Value O × LRU K O :=
  if s.encrypt then
    let et := encryptValue E value s.encryption
    let s1 := if s.valueType = none then
      { s with valueType := some et.2 } else s
    let data := Value.VStr et.1
    if ¬ s1.compress then (data, s1)
    else (Value.VStr (compressValue E data), s1)
  else
    let s1 := if s.valueType = none then
      { s with valueType := some value.jsType } else s
    if s1.compress then (Value.VStr (compressValue E value), s1)
    else (value, s1)

/-- `valueOut` from the source: decompress (when compression is enabled and
the stored value is a string), then decrypt (when encryption is enabled and
the intermediate is a string). -/
def valueOut (E : Ext K O) (s : LRU K O) (value : Value O) : Value O :=
  let data :=
    if s.compress && value.isStr then
      E.jparse (decompressValue E value.strOf)
    else value
  if s.encrypt && data.isStr then
    decryptValue E data.strOf s.valueType s.encryption
  else data

/-- `_moveToHead` from the source: unlink the node and relink it at the
head, refreshing its timestamp. -/
def moveToHead (k : K) (s : LRU K O) : LRU K O :=
  match alookup k s.cache with
  | some nd =>
    { s with order := k :: s.order.erase k,
             cache := aset k ⟨nd.storedValue, s.now⟩ s.cache }
  | none => { s with order := k :: s.order.erase k }

/-- `has` from the source: membership check that bumps exactly one
counter. -/
def has (k : K) (s : LRU K O) : Bool × LRU K O :=
  if (alookup k s.cache).isSome then
    (true, { s with hits := s.hits + 1 })
  else
    (false, { s with misses := s.misses + 1 })

/-- The over-capacity eviction step of `set` (source lines 361-371): pop
the tail, drop it from the map, decrement `size`, and invoke the eviction
callback with the reverse-transformed value. -/
def evictIfNeeded (E : Ext K O) (s : LRU K O) : LRU K O :=
  if (s.size : Int) > s.capacity then
    match s.order.getLast? with
    | none => s
    | some t =>
      let nd? := alookup t s.cache
      let s1 := { s with order := s.order.erase t,
                         cache := adel t s.cache, size := s.size - 1 }
      match nd? with
      | some nd =>
        if s1.hasOnEvicted then
          { s1 with evts := (t, valueOut E s1 nd.storedValue) :: s1.evts }
        else s1
      | none => s1
  else s

/-- The write-through mirror step shared by the end of `set`: store the
processed value (as text) in Redis under the md5 of the key. -/
def redisMirror (E : Ext K O) (k : K) (processed : Value O)
    (s : LRU K O) : LRU K O :=
  if s.writeThrough then
    match s.redis with
    | some store =>
      let storeValue :=
        match processed with
        | Value.VStr str => str
        | _ => jsonStringify E processed
      { s with redis := some (aset (E.md5F k) storeValue store) }
    | none => s
  else s

/-- `set` from the source: transform the value when compression or
encryption is enabled, overwrite-and-promote an existing node or insert a
fresh node at the head, evict the tail when over capacity, then mirror to
Redis when write-through is enabled. -/
def set (E : Ext K O) (k : K) (value : Value O) (s : LRU K O) : LRU K O :=
  let pr := if s.compress || s.encrypt then valueIn E value s else (value, s)
  let processed := pr.1
  let s0 := pr.2
  let s1 :=
    match alookup k s0.cache with
    | some _ =>
      moveToHead k { s0 with cache := aset k ⟨processed, s0.now⟩ s0.cache }
    | none =>
      let s' := { s0 with cache := aset k ⟨processed, s0.now⟩ s0.cache,
                          order := k :: s0.order, size := s0.size + 1 }
      evictIfNeeded E s'
  redisMirror E k processed s1

/-- `get` from the source: on a hit bump `hits`, promote to head, and
return the reverse-transformed value; on a miss bump `misses` and, under
write-through, consult the Redis mirror and re-insert a hit there. -/
def get (E : Ext K O) (k : K) (s : LRU K O) : Option (Value O) × LRU K O :=
  match alookup k s.cache with
  | some nd =>
    let s1 := moveToHead k { s with hits := s.hits + 1 }
    (some (valueOut E s1 nd.storedValue), s1)
  | none =>
    let s1 := { s with misses := s.misses + 1 }
    if s1.writeThrough then
      match s1.redis with
      | some store =>
        match alookup (E.md5F k) store with
        | some fromRedis =>
          let value := valueOut E s1 (Value.VStr fromRedis)
          (some value, set E k value s1)
        | none => (none, s1)
      | none => (none, s1)
    else (none, s1)

/-- `unset` from the source: when the key is present, unlink and delete it,
decrement `size`, and invoke the eviction callback; always delete the
mirrored Redis entry under write-through. -/
def unset (E : Ext K O) (k : K) (s : LRU K O) : LRU K O :=
  let s1 :=
    match alookup k s.cache with
    | some nd =>
      let s' := { s with order := s.order.erase k,
                         cache := adel k s.cache, size := s.size - 1 }
      if s'.hasOnEvicted then
        { s' with evts := (k, valueOut E s' nd.storedValue) :: s'.evts }
      else s'
    | none => s
  if s1.writeThrough then
    match s1.redis with
    | some store => { s1 with redis := some (adel (E.md5F k) store) }
    | none => s1
  else s1

/-- `allEntries` from the source: snapshot of all (key, reverse-transformed
value) pairs in map insertion order; does not mutate the state. -/
def allEntries (E : Ext K O) (s : LRU K O) : List (K × Value O) :=
  s.cache.map (fun p =>
    (p.1, if s.compress || s.encrypt then valueOut E s p.2.storedValue
          else p.2.storedValue))

/-- The record returned by `stats`. -/
structure Stats where
  hits : Nat
  misses : Nat
  size : Nat
deriving DecidableEq

/-- `stats` from the source: read the counters and the size, and reset the
counters when `flush` is requested. -/
def stats (flush : Bool) (s : LRU K O) : Stats × LRU K O :=
  let st : Stats := ⟨s.hits, s.misses, s.size⟩
  if flush then (st, { s with hits := 0, misses := 0 }) else (st, s)

/-- Redis connection options from the constructor signature. -/
structure RedisConfig where
  user : String
  pass : Option String
  host : String
deriving DecidableEq

/-- The constructor's option bag, with the source's defaults.  `none` for
`initVector`/`securityKey` stands for the `crypto.randomBytes` default. -/
structure Options where
  maxSize : Int
  compress : Bool := true
  encrypt : Bool := false
  initVector : Option (List Nat) := none
  securityKey : Option (List Nat) := none
  hasOnEvicted : Bool := false
  writeThrough : Bool := false
  redisConfig : Option RedisConfig := none

/-- The `SuperLRU` constructor: throws exactly when `writeThrough` is
requested without `redisConfig`; otherwise builds the initial state.
`rndIV`/`rndKey` supply the `crypto.randomBytes` defaults, `store₀` is the
content already in the connected Redis instance, and `clock` the current
time. -/
def mkSuperLRU (opts : Options) (rndIV rndKey : List Nat)
    (store₀ : List (String × String)) (clock : Nat) :
    Except String (LRU K O) :=
  if opts.writeThrough ∧ opts.redisConfig = none then
    Except.error "writeThrough requires redisConfig to be defined"
  else
    Except.ok
      { cache := []
        order := []
        capacity := opts.maxSize
        size := 0
        hits := 0
        misses := 0
        compress := opts.compress
        encrypt := opts.encrypt
        valueType := none
        hasOnEvicted := opts.hasOnEvicted
        evts := []
        writeThrough := opts.writeThrough
        redis := if opts.redisConfig.isSome then some store₀ else none
        encryption :=
          if opts.encrypt then
            ⟨"aes-256-cbc", opts.initVector.getD rndIV,
             opts.securityKey.getD rndKey⟩
          else
            ⟨"aes-256-cbc", List.replicate 16 0, List.replicate 32 0⟩
        now := clock }

/-! ### Association list lemmas -/

section AssocLemmas

variable {K : Type} {α : Type} [DecidableEq K] {k k' : K} {v : α}
variable {l : List (K × α)}

theorem alookup_nil : alookup k ([] : List (K × α)) = none := rfl

theorem akeys_nil : akeys ([] : List (K × α)) = [] := rfl

theorem akeys_cons {p : K × α} : akeys (p :: l) = p.1 :: akeys l := rfl

theorem length_akeys : (akeys l).length = l.length := List.length_map _ _

theorem mem_akeys_iff_isSome : k ∈ akeys l ↔ (alookup k l).isSome := by
  induction l with
  | nil => simp [akeys, alookup]
  | cons p rest ih =>
    obtain ⟨k', v'⟩ := p
    by_cases h : k' = k
    · subst h
      simp [akeys, alookup]
    · simp only [akeys, List.map_cons, List.mem_cons, alookup, if_neg h]
      constructor
      · rintro (h' | h')
        · exact absurd h'.symm h
        · exact ih.mp (by simpa [akeys] using h')
      · intro h'
        exact Or.inr (by simpa [akeys] using ih.mpr h')

theorem alookup_aset_self : alookup k (aset k v l) = some v := by
  induction l with
  | nil => simp [aset, alookup]
  | cons p rest ih =>
    obtain ⟨k', v'⟩ := p
    by_cases h : k' = k
    · subst h; simp [aset, alookup]
    · simp [aset, alookup, h, ih]

theorem alookup_aset_ne (h : k' ≠ k) :
    alookup k (aset k' v l) = alookup k l := by
  induction l with
  | nil => simp [aset, alookup, h]
  | cons p rest ih =>
    obtain ⟨ka, va⟩ := p
    by_cases hk : ka = k'
    · subst hk; simp [aset, alookup, h]
    · by_cases hk2 : ka = k
      · subst hk2; simp [aset, alookup, hk]
      · simp [aset, alookup, hk, hk2, ih]

theorem akeys_aset_of_isSome (h : (alookup k l).isSome) :
    akeys (aset k v l) = akeys l := by
  induction l with
  | nil => simp [alookup] at h
  | cons p rest ih =>
    obtain ⟨k', v'⟩ := p
    by_cases hk : k' = k
    · subst hk; simp [aset, akeys]
    · simp only [alookup, if_neg hk] at h
      simp only [aset, if_neg hk, akeys_cons]
      rw [ih h]

theorem akeys_aset_of_none (h : alookup k l = none) :
    akeys (aset k v l) = akeys l ++ [k] := by
  induction l with
  | nil => simp [aset, akeys]
  | cons p rest ih =>
    obtain ⟨k', v'⟩ := p
    by_cases hk : k' = k
    · subst hk; simp [alookup] at h
    · simp only [alookup, if_neg hk] at h
      simp only [aset, if_neg hk, akeys_cons]
      rw [ih h]
      simp

theorem length_aset_of_none (h : alookup k l = none) :
    (aset k v l).length = l.length + 1 := by
  have := congrArg List.length (akeys_aset_of_none (v := v) h)
  simpa [length_akeys] using this

theorem length_aset_of_isSome (h : (alookup k l).isSome) :
    (aset k v l).length = l.length := by
  have := congrArg List.length (akeys_aset_of_isSome (v := v) h)
  simpa [length_akeys] using this

theorem alookup_adel_ne (h : k' ≠ k) :
    alookup k (adel k' l) = alookup k l := by
  induction l with
  | nil => simp [adel]
  | cons p rest ih =>
    obtain ⟨ka, va⟩ := p
    by_cases hk : ka = k'
    · subst hk; simp [adel, alookup, h]
    · simp [adel, alookup, hk, ih]

theorem akeys_adel : akeys (adel k l) = (akeys l).erase k := by
  induction l with
  | nil => simp [adel, akeys]
  | cons p rest ih =>
    obtain ⟨k', v'⟩ := p
    by_cases hk : k' = k
    · subst hk; simp [adel, akeys, List.erase_cons]
    · simp only [adel, if_neg hk, akeys_cons]
      rw [List.erase_cons_tail (by simpa using hk), ih]

theorem alookup_adel_self (hnd : (akeys l).Nodup) :
    alookup k (adel k l) = none := by
  by_cases hm : k ∈ akeys (adel k l)
  · rw [akeys_adel] at hm
    exact absurd (hnd.mem_erase_iff.mp hm).1 (by simp)
  · rw [mem_akeys_iff_isSome] at hm
    exact Option.not_isSome_iff_eq_none.mp hm

theorem isSome_alookup_adel (hnd : (akeys l).Nodup) :
    (alookup k (adel k' l)).isSome ↔ k ≠ k' ∧ (alookup k l).isSome := by
  by_cases h : k = k'
  · subst h
    simp [alookup_adel_self hnd]
  · simp [alookup_adel_ne (Ne.symm h), h]

theorem length_adel_of_isSome (h : (alookup k l).isSome) :
    (adel k l).length = l.length - 1 := by
  have hm : k ∈ akeys l := mem_akeys_iff_isSome.mpr h
  have := congrArg List.length (akeys_adel (k := k) (l := l))
  simpa [length_akeys, List.length_erase_of_mem hm] using this

end AssocLemmas

/-! ### The structural invariant -/

variable {K O : Type} [DecidableEq K]

/-- The structural invariant of a cache state: the recency list has no
duplicates (so every entry occurs exactly once from head to tail and the
list is acyclic), the map keys are exactly the listed keys, and `size`
agrees with both the number of map entries and the number of list
nodes. -/
structure Inv (s : LRU K O) : Prop where
  nodupOrder : s.order.Nodup
  nodupKeys : (akeys s.cache).Nodup
  mem_iff : ∀ k, k ∈ s.order ↔ (alookup k s.cache).isSome
  sizeOrder : s.size = s.order.length
  sizeCache : s.size = s.cache.length

/-! ### Characterizations of the operations -/

/-- Overwriting the same key twice keeps only the last write. -/
theorem aset_aset {α : Type} {k : K} {v w : α} {l : List (K × α)} :
    aset k v (aset k w l) = aset k v l := by
  induction l with
  | nil => simp [aset]
  | cons p rest ih =>
    obtain ⟨k', v'⟩ := p
    by_cases hk : k' = k
    · subst hk; simp [aset]
    · simp [aset, hk, ih]

/-- The value-type tag after one transform of `v`: captured on first use,
immutable afterwards. -/
def tagAfter (v : Value O) (s : LRU K O) : Option TypeTag :=
  if s.compress || s.encrypt then
    (if s.valueType = none then some v.jsType else s.valueType)
  else s.valueType

/-- The processed value `set` stores for `v`. -/
def procOf (E : Ext K O) (v : Value O) (s : LRU K O) : Value O :=
  if s.compress || s.encrypt then (valueIn E v s).1 else v

/-- The instance state after the transform step of `set`. -/
def afterTag (E : Ext K O) (v : Value O) (s : LRU K O) : LRU K O :=
  if s.compress || s.encrypt then (valueIn E v s).2 else s

theorem valueIn_snd (E : Ext K O) (v : Value O) (s : LRU K O) :
    (valueIn E v s).2 =
      if s.valueType = none then { s with valueType := some v.jsType }
      else s := by
  unfold valueIn
  cases hE : s.encrypt <;> cases hT : s.valueType <;>
    cases hC : s.compress <;> simp [hE, hT, hC, encryptValue]

theorem afterTag_eq (E : Ext K O) (v : Value O) (s : LRU K O) :
    afterTag E v s = { s with valueType := tagAfter v s } := by
  unfold afterTag tagAfter
  cases hC : s.compress || s.encrypt <;> simp [valueIn_snd, hC]
  cases hT : s.valueType <;> simp [hT]
  rw [← hT]

theorem set_pr_eq (E : Ext K O) (v : Value O) (s : LRU K O) :
    (if s.compress || s.encrypt then valueIn E v s else (v, s)) =
      (procOf E v s, { s with valueType := tagAfter v s }) := by
  rw [← afterTag_eq E v s]
  unfold procOf afterTag
  cases hC : s.compress || s.encrypt <;> simp [hC]

/-- `valueOut` reads only the transform configuration, so engine-field
updates do not change it. -/
theorem valueOut_proj (E : Ext K O) (s : LRU K O)
    (c : List (K × Node O)) (o : List K) (n : Nat) (val : Value O) :
    valueOut E { s with cache := c, order := o, size := n } val =
      valueOut E s val := rfl

theorem moveToHead_eq {k : K} {s : LRU K O} {nd : Node O}
    (h : alookup k s.cache = some nd) :
    moveToHead k s =
      { s with order := k :: s.order.erase k,
               cache := aset k ⟨nd.storedValue, s.now⟩ s.cache } := by
  unfold moveToHead
  simp [h]

/-- `set` on an absent key: insert at the head, then run the eviction
step, then mirror. -/
theorem set_eq_of_none (E : Ext K O) {k : K} (v : Value O) {s : LRU K O}
    (h : alookup k s.cache = none) :
    set E k v s =
      redisMirror E k (procOf E v s)
        (evictIfNeeded E
          { s with valueType := tagAfter v s,
                   cache := aset k ⟨procOf E v s, s.now⟩ s.cache,
                   order := k :: s.order, size := s.size + 1 }) := by
  unfold set
  rw [set_pr_eq]
  simp [h]

/-- `set` on a present key: overwrite in place and promote to the head;
no eviction step runs. -/
theorem set_eq_of_some (E : Ext K O) {k : K} (v : Value O) {s : LRU K O}
    {nd : Node O} (h : alookup k s.cache = some nd) :
    set E k v s =
      redisMirror E k (procOf E v s)
        { s with valueType := tagAfter v s,
                 order := k :: s.order.erase k,
                 cache := aset k ⟨procOf E v s, s.now⟩ s.cache } := by
  unfold set
  rw [set_pr_eq]
  simp only [h]
  rw [moveToHead_eq (show alookup k
    (aset k ⟨procOf E v s, s.now⟩ s.cache) = some ⟨procOf E v s, s.now⟩
    from alookup_aset_self)]
  simp [aset_aset]

theorem redisMirror_exists (E : Ext K O) (k : K) (p : Value O)
    (s : LRU K O) :
    ∃ r, redisMirror E k p s = { s with redis := r } := by
  unfold redisMirror
  by_cases hW : s.writeThrough = true
  · rw [if_pos hW]
    cases hR : s.redis with
    | none => exact ⟨s.redis, by rfl⟩
    | some store => exact ⟨_, rfl⟩
  · rw [if_neg hW]
    exact ⟨s.redis, rfl⟩

theorem evictIfNeeded_eq_of_le (E : Ext K O) {s : LRU K O}
    (h : ¬ ((s.size : Int) > s.capacity)) : evictIfNeeded E s = s := by
  unfold evictIfNeeded
  simp [h]

theorem evictIfNeeded_eq_of_gt (E : Ext K O) {s : LRU K O} {t : K}
    {nd : Node O} (hgt : (s.size : Int) > s.capacity)
    (ht : s.order.getLast? = some t) (hnd : alookup t s.cache = some nd) :
    evictIfNeeded E s =
      (if s.hasOnEvicted then
        { s with order := s.order.erase t, cache := adel t s.cache,
                 size := s.size - 1,
                 evts := (t, valueOut E s nd.storedValue) :: s.evts }
       else
        { s with order := s.order.erase t, cache := adel t s.cache,
                 size := s.size - 1 }) := by
  unfold evictIfNeeded
  simp only [hgt, if_pos, ht, hnd]
  cases hE : s.hasOnEvicted <;> simp [hE] <;> rfl

theorem evictIfNeeded_eq_of_gt_none (E : Ext K O) {s : LRU K O} {t : K}
    (hgt : (s.size : Int) > s.capacity) (ht : s.order.getLast? = some t)
    (hnd : alookup t s.cache = none) :
    evictIfNeeded E s =
      { s with order := s.order.erase t, cache := adel t s.cache,
               size := s.size - 1 } := by
  unfold evictIfNeeded
  simp only [hgt, if_pos, ht, hnd]

/-! ### Invariant preservation -/

/-- The invariant only concerns the recency list, the map, and `size`. -/
theorem inv_of_proj {s1 s2 : LRU K O} (h : Inv s1) (ho : s2.order = s1.order)
    (hc : s2.cache = s1.cache) (hs : s2.size = s1.size) : Inv s2 := by
  refine ⟨ho ▸ h.nodupOrder, hc ▸ h.nodupKeys, ?_, ?_, ?_⟩
  · intro k
    rw [ho, hc]
    exact h.mem_iff k
  · rw [hs, ho]
    exact h.sizeOrder
  · rw [hs, hc]
    exact h.sizeCache

theorem inv_promoted {s : LRU K O} {k : K} (hInv : Inv s)
    (hsome : (alookup k s.cache).isSome) (nd' : Node O) :
    Inv { s with order := k :: s.order.erase k,
                 cache := aset k nd' s.cache } := by
  have hkm : k ∈ s.order := (hInv.mem_iff k).mpr hsome
  refine ⟨?_, ?_, ?_, ?_, ?_⟩
  · refine List.nodup_cons.mpr ⟨?_, hInv.nodupOrder.erase k⟩
    intro hmem
    exact absurd (hInv.nodupOrder.mem_erase_iff.mp hmem).1 (by simp)
  · simpa [akeys_aset_of_isSome hsome] using hInv.nodupKeys
  · intro k'
    by_cases hk : k' = k
    · subst hk
      simp [alookup_aset_self]
    · simp only [List.mem_cons, hInv.nodupOrder.mem_erase_iff,
        alookup_aset_ne (fun h => hk h.symm)]
      constructor
      · rintro (h | h)
        · exact absurd h hk
        · exact (hInv.mem_iff k').mp h.2
      · intro h
        exact Or.inr ⟨hk, (hInv.mem_iff k').mpr h⟩
  · simp [List.length_erase_of_mem hkm, hInv.sizeOrder]
    have : 1 ≤ s.order.length := List.length_pos.mpr (List.ne_nil_of_mem hkm)
    omega
  · simp [length_aset_of_isSome hsome, hInv.sizeCache]

theorem inv_fresh {s : LRU K O} {k : K} (hInv : Inv s)
    (hnone : alookup k s.cache = none) (nd' : Node O) :
    Inv { s with cache := aset k nd' s.cache,
                 order := k :: s.order, size := s.size + 1 } := by
  have hkm : k ∉ s.order := by
    rw [hInv.mem_iff k, hnone]
    simp
  refine ⟨List.nodup_cons.mpr ⟨hkm, hInv.nodupOrder⟩, ?_, ?_, ?_, ?_⟩
  · rw [akeys_aset_of_none hnone]
    refine List.Nodup.append hInv.nodupKeys (List.nodup_singleton k) ?_
    intro a ha hb
    rw [List.mem_singleton] at hb
    subst hb
    rw [mem_akeys_iff_isSome, hnone] at ha
    simp at ha
  · intro k'
    by_cases hk : k' = k
    · subst hk
      simp [alookup_aset_self]
    · simp only [List.mem_cons, alookup_aset_ne (fun h => hk h.symm)]
      constructor
      · rintro (h | h)
        · exact absurd h hk
        · exact (hInv.mem_iff k').mp h
      · intro h
        exact Or.inr ((hInv.mem_iff k').mpr h)
  · simp [hInv.sizeOrder]
  · simp [length_aset_of_none hnone, hInv.sizeCache]

theorem inv_evicted {s : LRU K O} {t : K} (hInv : Inv s)
    (htm : t ∈ s.order) :
    Inv { s with order := s.order.erase t, cache := adel t s.cache,
                 size := s.size - 1 } := by
  have hts : (alookup t s.cache).isSome := (hInv.mem_iff t).mp htm
  refine ⟨hInv.nodupOrder.erase t, ?_, ?_, ?_, ?_⟩
  · rw [akeys_adel]
    exact hInv.nodupKeys.erase t
  · intro k'
    simp only [hInv.nodupOrder.mem_erase_iff,
      isSome_alookup_adel hInv.nodupKeys]
    rw [hInv.mem_iff k']
  · simp [List.length_erase_of_mem htm, hInv.sizeOrder]
  · simp [length_adel_of_isSome hts, hInv.sizeCache]

theorem inv_redisMirror {s : LRU K O} (E : Ext K O) (k : K) (p : Value O)
    (hInv : Inv s) : Inv (redisMirror E k p s) := by
  obtain ⟨r, hr⟩ := redisMirror_exists E k p s
  rw [hr]
  exact inv_of_proj hInv rfl rfl rfl

theorem inv_evictIfNeeded {s : LRU K O} (E : Ext K O) (hInv : Inv s) :
    Inv (evictIfNeeded E s) := by
  by_cases hgt : (s.size : Int) > s.capacity
  · cases ht : s.order.getLast? with
    | none =>
      unfold evictIfNeeded
      simp only [hgt, if_pos, ht]
      exact hInv
    | some t =>
      have htm : t ∈ s.order := List.mem_of_getLast?_eq_some ht
      obtain ⟨nd, hnd⟩ :=
        Option.isSome_iff_exists.mp ((hInv.mem_iff t).mp htm)
      rw [evictIfNeeded_eq_of_gt E hgt ht hnd]
      have hcore := inv_evicted hInv htm
      split
      · exact inv_of_proj hcore rfl rfl rfl
      · exact hcore
  · rw [evictIfNeeded_eq_of_le E hgt]
    exact hInv

theorem inv_set {s : LRU K O} (E : Ext K O) (k : K) (v : Value O)
    (hInv : Inv s) : Inv (set E k v s) := by
  cases hl : alookup k s.cache with
  | some nd =>
    rw [set_eq_of_some E v hl]
    refine inv_redisMirror E k _ ?_
    exact inv_of_proj (inv_promoted hInv (by simp [hl]) _) rfl rfl rfl
  | none =>
    rw [set_eq_of_none E v hl]
    refine inv_redisMirror E k _ ?_
    refine inv_evictIfNeeded E ?_
    exact inv_of_proj (inv_fresh hInv hl ⟨procOf E v s, s.now⟩) rfl rfl rfl

theorem inv_moveToHead {s : LRU K O} {k : K} {nd : Node O}
    (hl : alookup k s.cache = some nd) (hInv : Inv s) :
    Inv (moveToHead k s) := by
  rw [moveToHead_eq hl]
  exact inv_promoted hInv (by simp [hl]) _

theorem inv_has {s : LRU K O} (k : K) (hInv : Inv s) :
    Inv (has k s).2 := by
  unfold has
  split <;> exact inv_of_proj hInv rfl rfl rfl

theorem inv_stats {s : LRU K O} (flush : Bool) (hInv : Inv s) :
    Inv (stats flush s).2 := by
  unfold stats
  split <;> exact inv_of_proj hInv rfl rfl rfl

theorem inv_get {s : LRU K O} (E : Ext K O) (k : K) (hInv : Inv s) :
    Inv (get E k s).2 := by
  unfold get
  cases hl : alookup k s.cache with
  | some nd =>
    simp only
    refine inv_moveToHead (show alookup k
      ({ s with hits := s.hits + 1 } : LRU K O).cache = some nd
      from by simpa using hl) ?_
    exact inv_of_proj hInv rfl rfl rfl
  | none =>
    have hmiss : Inv { s with misses := s.misses + 1 } :=
      inv_of_proj hInv rfl rfl rfl
    simp only
    split
    · split
      · split
        · exact inv_set E k _ hmiss
        · exact hmiss
      · exact hmiss
    · exact hmiss

theorem inv_unset {s : LRU K O} (E : Ext K O) (k : K) (hInv : Inv s) :
    Inv (unset E k s) := by
  unfold unset
  have hbody : ∀ s1 : LRU K O, Inv s1 →
      Inv (if s1.writeThrough then
            match s1.redis with
            | some store =>
              { s1 with redis := some (adel (E.md5F k) store) }
            | none => s1
           else s1) := by
    intro s1 h1
    split
    · split
      · exact inv_of_proj h1 rfl rfl rfl
      · exact h1
    · exact h1
  apply hbody
  cases hl : alookup k s.cache with
  | some nd =>
    have htm : k ∈ s.order := (hInv.mem_iff k).mpr (by simp [hl])
    simp only
    have hcore := inv_evicted hInv htm
    split
    · exact inv_of_proj hcore rfl rfl rfl
    · exact hcore
  | none => exact hInv

/-! ### Frame lemmas and the capacity bound -/

theorem evictIfNeeded_exists (E : Ext K O) (s : LRU K O) :
    ∃ o c n e, evictIfNeeded E s =
      { s with order := o, cache := c, size := n, evts := e } := by
  by_cases hgt : (s.size : Int) > s.capacity
  · cases ht : s.order.getLast? with
    | none =>
      unfold evictIfNeeded
      simp only [hgt, if_pos, ht]
      exact ⟨s.order, s.cache, s.size, s.evts, by rfl⟩
    | some t =>
      cases hnd : alookup t s.cache with
      | some nd =>
        rw [evictIfNeeded_eq_of_gt E hgt ht hnd]
        split
        · exact ⟨_, _, _, _, rfl⟩
        · exact ⟨_, _, _, _, rfl⟩
      | none =>
        unfold evictIfNeeded
        simp only [hgt, if_pos, ht, hnd]
        exact ⟨_, _, _, _, rfl⟩
  · rw [evictIfNeeded_eq_of_le E hgt]
    exact ⟨s.order, s.cache, s.size, s.evts, by rfl⟩

/-- `set` only touches the map, the recency list, `size`, the event log,
the type tag, and the Redis mirror: counters, capacity, flags and
encryption material are untouched. -/
theorem set_exists_frame (E : Ext K O) (k : K) (v : Value O)
    (s : LRU K O) :
    ∃ o c n e vt r, set E k v s =
      { s with order := o, cache := c, size := n, evts := e,
               valueType := vt, redis := r } := by
  cases hl : alookup k s.cache with
  | some nd =>
    rw [set_eq_of_some E v hl]
    obtain ⟨r, hr⟩ := redisMirror_exists E k (procOf E v s) _
    rw [hr]
    exact ⟨_, _, _, _, _, _, rfl⟩
  | none =>
    rw [set_eq_of_none E v hl]
    obtain ⟨o, c, n, e, he⟩ := evictIfNeeded_exists E
      { s with valueType := tagAfter v s,
               cache := aset k ⟨procOf E v s, s.now⟩ s.cache,
               order := k :: s.order, size := s.size + 1 }
    rw [he]
    obtain ⟨r, hr⟩ := redisMirror_exists E k (procOf E v s) _
    rw [hr]
    exact ⟨_, _, _, _, _, _, rfl⟩

theorem set_frame (E : Ext K O) (k : K) (v : Value O) (s : LRU K O) :
    (set E k v s).hits = s.hits ∧ (set E k v s).misses = s.misses ∧
    (set E k v s).capacity = s.capacity ∧
    (set E k v s).compress = s.compress ∧
    (set E k v s).encrypt = s.encrypt ∧
    (set E k v s).hasOnEvicted = s.hasOnEvicted ∧
    (set E k v s).writeThrough = s.writeThrough ∧
    (set E k v s).encryption = s.encryption ∧
    (set E k v s).now = s.now := by
  obtain ⟨o, c, n, e, vt, r, h⟩ := set_exists_frame E k v s
  rw [h]
  exact ⟨rfl, rfl, rfl, rfl, rfl, rfl, rfl, rfl, rfl⟩

/-- After an insert the tail always exists, so an over-capacity insert
always evicts and `set` never leaves the size above the capacity. -/
theorem set_size_le {s : LRU K O} (E : Ext K O) (k : K) (v : Value O)
    (hInv : Inv s) (hle : (s.size : Int) ≤ s.capacity) :
    ((set E k v s).size : Int) ≤ s.capacity := by
  cases hl : alookup k s.cache with
  | some nd =>
    rw [set_eq_of_some E v hl]
    obtain ⟨r, hr⟩ := redisMirror_exists E k (procOf E v s) _
    rw [hr]
    exact hle
  | none =>
    rw [set_eq_of_none E v hl]
    set s' : LRU K O :=
      { s with valueType := tagAfter v s,
               cache := aset k ⟨procOf E v s, s.now⟩ s.cache,
               order := k :: s.order, size := s.size + 1 } with hs'
    obtain ⟨r, hr⟩ := redisMirror_exists E k (procOf E v s)
      (evictIfNeeded E s')
    rw [hr]
    show ((evictIfNeeded E s').size : Int) ≤ s.capacity
    by_cases hgt : ((s.size + 1 : Nat) : Int) > s.capacity
    · obtain ⟨t, ht⟩ := Option.isSome_iff_exists.mp
        ((List.getLast?_isSome (l := k :: s.order)).mpr (by simp))
      have hts : (alookup t s'.cache).isSome := by
        have htm : t ∈ k :: s.order :=
          List.mem_of_getLast?_eq_some ht
        rcases List.mem_cons.mp htm with h | h
        · subst h
          simp [hs', alookup_aset_self]
        · by_cases hk : t = k
          · subst hk
            simp [hs', alookup_aset_self]
          · have := (hInv.mem_iff t).mp h
            simpa [hs', alookup_aset_ne (fun hx => hk hx.symm)] using this
      obtain ⟨nd', hnd'⟩ := Option.isSome_iff_exists.mp hts
      rw [evictIfNeeded_eq_of_gt E (by simpa [hs'] using hgt)
        (by simpa [hs'] using ht) hnd']
      split
      · simpa [hs'] using hle
      · simpa [hs'] using hle
    · rw [evictIfNeeded_eq_of_le E (by simpa [hs'] using hgt)]
      simp only [hs']
      omega

/-- The state of a freshly constructed instance without write-through. -/
def initLRU (cap : Int) (cmp enc cb : Bool) : LRU K O :=
  { cache := [], order := [], capacity := cap, size := 0, hits := 0,
    misses := 0, compress := cmp, encrypt := enc, valueType := none,
    hasOnEvicted := cb, evts := [], writeThrough := false, redis := none,
    encryption := ⟨"aes-256-cbc", List.replicate 16 0,
                   List.replicate 32 0⟩,
    now := 0 }

theorem mk_ok_init (cap : Int) (cmp cb : Bool) (rndIV rndKey : List Nat)
    (store₀ : List (String × String)) :
    mkSuperLRU (K := K) (O := O)
      { maxSize := cap, compress := cmp, encrypt := false,
        hasOnEvicted := cb } rndIV rndKey store₀ 0 =
      Except.ok (initLRU cap cmp false cb) := rfl

theorem inv_initLRU (cap : Int) (cmp enc cb : Bool) :
    Inv (initLRU (K := K) (O := O) cap cmp enc cb) := by
  refine ⟨by simp [initLRU], by simp [initLRU, akeys], ?_, rfl, rfl⟩
  intro k
  simp [initLRU, alookup]

/-! ### The value transform pipeline round trip -/

/-- `valueOut` reads only the transform configuration of the state. -/
theorem valueOut_congr (E : Ext K O) (s2 : LRU K O) {s1 : LRU K O}
    (h1 : s1.compress = s2.compress) (h2 : s1.encrypt = s2.encrypt)
    (h3 : s1.valueType = s2.valueType)
    (h4 : s1.encryption = s2.encryption) :
    valueOut E s1 = valueOut E s2 := by
  funext val
  unfold valueOut
  rw [h1, h2, h3, h4]

/-- Deciphering with the same material and parsing by the recorded tag
undoes `encryptValue`, given the library round-trip laws. -/
theorem decrypt_encrypt (E : Ext K O) (enc : EncryptionConfig)
    (v : Value O)
    (hjson : ∀ u : Value O, E.jparse (jsonStringify E u) = u)
    (hcip : ∀ a, E.decipherOf enc (E.cipherOf enc a) = a) :
    decryptValue E (encryptValue E v enc).1 (some v.jsType) enc = v := by
  cases v with
  | VStr str => simp [encryptValue, decryptValue, hcip, Value.jsType]
  | VNum n =>
    have hn := hjson (Value.VNum n)
    simp only [jsonStringify] at hn
    simp [encryptValue, decryptValue, hcip, Value.jsType, hn]
  | VObj o =>
    simp [encryptValue, decryptValue, hcip, Value.jsType, hjson]

theorem tagAfter_eq_some {s : LRU K O} (v : Value O)
    (hC : (s.compress || s.encrypt) = true)
    (htag : s.valueType = none ∨ s.valueType = some v.jsType) :
    tagAfter v s = some v.jsType := by
  unfold tagAfter
  rw [hC]
  rcases htag with h | h
  · simp [h]
  · simp [h]

/-- The heart of the round trip: decoding the processed value under the
updated tag restores the original value, for every combination of the
`compress`/`encrypt` flags, given the library round-trip laws. -/
theorem valueOut_procOf (E : Ext K O) (v : Value O) (s : LRU K O)
    (hjson : ∀ u : Value O, E.jparse (jsonStringify E u) = u)
    (hzip : ∀ a, E.gunzipF (E.gzipF a) = a)
    (hb64 : ∀ a, E.b64d (E.b64e a) = a)
    (hcip : ∀ a, E.decipherOf s.encryption (E.cipherOf s.encryption a) = a)
    (htag : s.valueType = none ∨ s.valueType = some v.jsType) :
    valueOut E { s with valueType := tagAfter v s } (procOf E v s) = v := by
  cases hC : s.compress <;> cases hE : s.encrypt
  · -- no transform: the raw value is stored and returned unchanged
    have hp : procOf E v s = v := by
      unfold procOf
      simp [hC, hE]
    rw [hp]
    unfold valueOut
    simp [hC, hE]
  · -- encrypt only
    have htg := tagAfter_eq_some v (by simp [hC, hE]) htag
    have hp : procOf E v s =
        Value.VStr (encryptValue E v s.encryption).1 := by
      unfold procOf valueIn
      cases hT : s.valueType <;> simp [hC, hE, hT]
    rw [hp]
    unfold valueOut
    simp [hC, hE, Value.isStr, Value.strOf, htg,
      decrypt_encrypt E s.encryption v hjson hcip]
  · -- compress only
    have hp : procOf E v s = Value.VStr (compressValue E v) := by
      unfold procOf valueIn
      cases hT : s.valueType <;> simp [hC, hE, hT]
    rw [hp]
    unfold valueOut compressValue decompressValue
    simp [hC, hE, Value.isStr, Value.strOf, hb64, hzip, hjson]
  · -- encrypt then compress
    have htg := tagAfter_eq_some v (by simp [hC, hE]) htag
    have hp : procOf E v s = Value.VStr (compressValue E
        (Value.VStr (encryptValue E v s.encryption).1)) := by
      unfold procOf valueIn
      cases hT : s.valueType <;> simp [hC, hE, hT]
    rw [hp]
    unfold valueOut compressValue decompressValue
    simp [hC, hE, Value.isStr, Value.strOf, hb64, hzip, hjson, htg,
      decrypt_encrypt E s.encryption v hjson hcip]

theorem getLast?_cons_of_some {l : List K} {a t : K}
    (h : l.getLast? = some t) : (a :: l).getLast? = some t := by
  cases l with
  | nil => simp at h
  | cons b m => rw [List.getLast?_cons_cons]; exact h

theorem moveToHead_exists (k : K) (s : LRU K O) :
    ∃ o c, moveToHead k s = { s with order := o, cache := c } := by
  unfold moveToHead
  split
  · exact ⟨_, _, rfl⟩
  · exact ⟨k :: s.order.erase k, s.cache, by rfl⟩

/-- `set` always records the transform tag of the first transformed
value. -/
theorem set_valueType (E : Ext K O) (k : K) (v : Value O) (s : LRU K O) :
    (set E k v s).valueType = tagAfter v s := by
  cases hl : alookup k s.cache with
  | some nd =>
    rw [set_eq_of_some E v hl]
    obtain ⟨r, hr⟩ := redisMirror_exists E k (procOf E v s) _
    rw [hr]
  | none =>
    rw [set_eq_of_none E v hl]
    obtain ⟨o, c, n, e, he⟩ := evictIfNeeded_exists E _
    rw [he]
    obtain ⟨r, hr⟩ := redisMirror_exists E k (procOf E v s) _
    rw [hr]

/-- Immediately after `set k v` the key `k` is resident with the processed
value: the eviction that may accompany the insert never removes the key
just inserted (the new node is the head, the evicted node the tail of a
list with at least two nodes when the capacity is at least one). -/
theorem set_lookup_self {s : LRU K O} (E : Ext K O) (k : K) (v : Value O)
    (hInv : Inv s) (hcap : 1 ≤ s.capacity) :
    alookup k (set E k v s).cache = some ⟨procOf E v s, s.now⟩ := by
  cases hl : alookup k s.cache with
  | some nd =>
    rw [set_eq_of_some E v hl]
    obtain ⟨r, hr⟩ := redisMirror_exists E k (procOf E v s) _
    rw [hr]
    exact alookup_aset_self
  | none =>
    rw [set_eq_of_none E v hl]
    set s' : LRU K O :=
      { s with valueType := tagAfter v s,
               cache := aset k ⟨procOf E v s, s.now⟩ s.cache,
               order := k :: s.order, size := s.size + 1 } with hs'
    obtain ⟨r, hr⟩ := redisMirror_exists E k (procOf E v s)
      (evictIfNeeded E s')
    rw [hr]
    show alookup k (evictIfNeeded E s').cache = some ⟨procOf E v s, s.now⟩
    by_cases hgt : ((s.size + 1 : Nat) : Int) > s.capacity
    · have hsz : 1 ≤ s.size := by omega
      have hone : s.order ≠ [] := by
        intro h0
        rw [hInv.sizeOrder, h0] at hsz
        simp at hsz
      obtain ⟨t, ht⟩ := Option.isSome_iff_exists.mp
        (List.getLast?_isSome.mpr hone)
      have htm : t ∈ s.order := List.mem_of_getLast?_eq_some ht
      have htk : t ≠ k := by
        intro h
        subst h
        have := (hInv.mem_iff t).mp htm
        rw [hl] at this
        simp at this
      obtain ⟨nd, hnd⟩ :=
        Option.isSome_iff_exists.mp ((hInv.mem_iff t).mp htm)
      have hnd' : alookup t s'.cache = some nd := by
        show alookup t (aset k ⟨procOf E v s, s.now⟩ s.cache) = some nd
        rw [alookup_aset_ne (Ne.symm htk)]
        exact hnd
      rw [evictIfNeeded_eq_of_gt E (by simpa [hs'] using hgt)
        (by simpa [hs'] using getLast?_cons_of_some (a := k) ht) hnd']
      have hcache : alookup k (adel t s'.cache) =
          some ⟨procOf E v s, s.now⟩ := by
        rw [alookup_adel_ne htk]
        show alookup k (aset k ⟨procOf E v s, s.now⟩ s.cache) = _
        exact alookup_aset_self
      split
      · exact hcache
      · exact hcache
    · rw [evictIfNeeded_eq_of_le E (by simpa [hs'] using hgt)]
      show alookup k (aset k ⟨procOf E v s, s.now⟩ s.cache) = _
      exact alookup_aset_self

/-- A `get` hit returns the reverse-transformed stored value (promotion
does not change the transform configuration the decode reads). -/
theorem get_hit_fst {s : LRU K O} (E : Ext K O) (k : K) {nd : Node O}
    (hl : alookup k s.cache = some nd) :
    (get E k s).1 = some (valueOut E s nd.storedValue) := by
  unfold get
  rw [hl]
  obtain ⟨o, c, hmv⟩ := moveToHead_exists k { s with hits := s.hits + 1 }
  rw [hmv]
  rfl

/-- C1: for every cache state of a single value classification (the
recorded tag is empty or matches the value), under every combination of
the `compress` and `encrypt` options, `set k v` followed by `get k`
returns exactly `v`, given the round-trip laws of the external codecs
(JSON, gzip, base64, and the block cipher for the instance material). -/
theorem set_then_get_roundtrip (E : Ext K O) (k : K) (v : Value O)
    (s : LRU K O) (hcap : 1 ≤ s.capacity) (hInv : Inv s)
    (hjson : ∀ u : Value O, E.jparse (jsonStringify E u) = u)
    (hzip : ∀ a, E.gunzipF (E.gzipF a) = a)
    (hb64 : ∀ a, E.b64d (E.b64e a) = a)
    (hcip : ∀ a, E.decipherOf s.encryption (E.cipherOf s.encryption a) = a)
    (htag : s.valueType = none ∨ s.valueType = some v.jsType) :
    (get E k (set E k v s)).1 = some v := by
  have hlk := set_lookup_self E k v hInv hcap
  rw [get_hit_fst E k hlk]
  have hfr := set_frame E k v s
  have hvo : valueOut E (set E k v s) =
      valueOut E { s with valueType := tagAfter v s } := by
    refine valueOut_congr E _ ?_ ?_ ?_ ?_
    · exact hfr.2.2.2.1
    · exact hfr.2.2.2.2.1
    · exact set_valueType E k v s
    · exact hfr.2.2.2.2.2.2.2.1
  rw [hvo]
  exact congrArg some (valueOut_procOf E v s hjson hzip hb64 hcip htag)

theorem get_eq_of_some (E : Ext K O) (k : K) {s : LRU K O} {nd : Node O}
    (hl : alookup k s.cache = some nd) :
    get E k s =
      (some (valueOut E (moveToHead k { s with hits := s.hits + 1 })
        nd.storedValue),
       moveToHead k { s with hits := s.hits + 1 }) := by
  unfold get
  rw [hl]

theorem get_eq_of_none (E : Ext K O) (k : K) {s : LRU K O}
    (hl : alookup k s.cache = none) :
    get E k s =
      (if s.writeThrough then
        match s.redis with
        | some store =>
          match alookup (E.md5F k) store with
          | some fr =>
            (some (valueOut E { s with misses := s.misses + 1 }
              (Value.VStr fr)),
             set E k
              (valueOut E { s with misses := s.misses + 1 }
                (Value.VStr fr))
              { s with misses := s.misses + 1 })
          | none => (none, { s with misses := s.misses + 1 })
        | none => (none, { s with misses := s.misses + 1 })
       else (none, { s with misses := s.misses + 1 })) := by
  unfold get
  rw [hl]

/-- On a miss the resulting state is the miss-counted state, possibly
after the Redis re-insert `set`. -/
theorem get_snd_cases (E : Ext K O) (k : K) (s : LRU K O)
    (hl : alookup k s.cache = none) :
    (get E k s).2 = { s with misses := s.misses + 1 } ∨
    ∃ w, (get E k s).2 =
      set E k w { s with misses := s.misses + 1 } := by
  rw [get_eq_of_none E k hl]
  split
  · split
    · split
      · right; exact ⟨_, rfl⟩
      · left; rfl
    · left; rfl
  · left; rfl

theorem get_counters (E : Ext K O) (k : K) (s : LRU K O) :
    (get E k s).2.hits =
      (if (alookup k s.cache).isSome then s.hits + 1 else s.hits) ∧
    (get E k s).2.misses =
      (if (alookup k s.cache).isSome then s.misses else s.misses + 1) := by
  cases hl : alookup k s.cache with
  | some nd =>
    rw [get_eq_of_some E k hl]
    obtain ⟨o, c, hmv⟩ := moveToHead_exists k { s with hits := s.hits + 1 }
    rw [hmv]
    constructor <;> simp
  | none =>
    rcases get_snd_cases E k s hl with h | ⟨w, h⟩ <;> rw [h]
    · constructor <;> simp
    · constructor
      · rw [(set_frame E k w { s with misses := s.misses + 1 }).1]
        simp
      · rw [(set_frame E k w { s with misses := s.misses + 1 }).2.1]
        simp

/-- C10: `has` only touches the hit/miss counters: the map, the recency
order, the size, the event log, the tag and the mirror are untouched, so
interleaving any number of `has` calls cannot change future evictions. -/
theorem has_touches_only_counters (k : K) (s : LRU K O) :
    (has k s).1 = (alookup k s.cache).isSome ∧
    (has k s).2.cache = s.cache ∧ (has k s).2.order = s.order ∧
    (has k s).2.size = s.size ∧ (has k s).2.evts = s.evts ∧
    (has k s).2.valueType = s.valueType ∧ (has k s).2.redis = s.redis ∧
    (has k s).2 = { s with hits := (has k s).2.hits,
                           misses := (has k s).2.misses } := by
  unfold has
  by_cases h : (alookup k s.cache).isSome
  · simp [h]
  · simp [h]

/-- C7: `has` and `get` each bump exactly one counter (hits on a present
key, misses otherwise); `stats true` returns the current counters and
size, zeroes the counters in the same call — so an immediately following
flush reads zero hits and misses — and never changes the cache contents
or the size. -/
theorem stats_hits_misses_flush (E : Ext K O) (k : K) (fl : Bool)
    (s : LRU K O) :
    ((has k s).2.hits =
      (if (alookup k s.cache).isSome then s.hits + 1 else s.hits)) ∧
    ((has k s).2.misses =
      (if (alookup k s.cache).isSome then s.misses else s.misses + 1)) ∧
    ((get E k s).2.hits =
      (if (alookup k s.cache).isSome then s.hits + 1 else s.hits)) ∧
    ((get E k s).2.misses =
      (if (alookup k s.cache).isSome then s.misses else s.misses + 1)) ∧
    (stats true s).1 = ⟨s.hits, s.misses, s.size⟩ ∧
    (stats true s).2 = { s with hits := 0, misses := 0 } ∧
    (stats true (stats true s).2).1 = ⟨0, 0, s.size⟩ ∧
    (stats fl s).2.cache = s.cache ∧ (stats fl s).2.order = s.order ∧
    (stats fl s).2.size = s.size := by
  refine ⟨?_, ?_, (get_counters E k s).1, (get_counters E k s).2,
    rfl, rfl, rfl, ?_, ?_, ?_⟩
  · unfold has
    by_cases h : (alookup k s.cache).isSome <;> simp [h]
  · unfold has
    by_cases h : (alookup k s.cache).isSome <;> simp [h]
  · unfold stats
    split <;> rfl
  · unfold stats
    split <;> rfl
  · unfold stats
    split <;> rfl

/-- C9: the ciphertext produced by `encryptValue` is a function of the
encryption material and the plaintext alone — two calls with equal
material and equal plaintexts produce identical ciphertexts (the cipher
is rebuilt from the same fixed algorithm, key and IV on every call, with
no per-call randomness). -/
theorem encryptValue_deterministic (E : Ext K O) (e1 e2 : EncryptionConfig)
    (v1 v2 : Value O) (he : e1 = e2) (hv : v1 = v2) :
    encryptValue E v1 e1 = encryptValue E v2 e2 := by
  subst he
  subst hv
  rfl

/-- C8: decompressing a compressed value restores exactly the canonical
serialization (the JSON text) of the value, given the gzip and base64
round-trip laws of the underlying libraries. -/
theorem decompress_compress_canonical (E : Ext K O) (v : Value O)
    (hzip : ∀ a, E.gunzipF (E.gzipF a) = a)
    (hb64 : ∀ a, E.b64d (E.b64e a) = a) :
    decompressValue E (compressValue E v) = jsonStringify E v := by
  unfold compressValue decompressValue
  rw [hb64, hzip]

/-- C4: each public operation preserves the structural invariant (size
agrees with the map and the recency list, which lists every resident key
exactly once), and for a positive capacity a `set` never leaves the size
above the capacity. -/
theorem ops_preserve_invariant (E : Ext K O) (k : K) (v : Value O)
    (fl : Bool) {s : LRU K O} (hInv : Inv s) :
    Inv (has k s).2 ∧ Inv (get E k s).2 ∧ Inv (set E k v s) ∧
    Inv (unset E k s) ∧ Inv (stats fl s).2 ∧
    (0 < s.capacity → (s.size : Int) ≤ s.capacity →
      ((set E k v s).size : Int) ≤ (set E k v s).capacity) := by
  refine ⟨inv_has k hInv, inv_get E k hInv, inv_set E k v hInv,
    inv_unset E k hInv, inv_stats fl hInv, ?_⟩
  intro hpos hle
  rw [(set_frame E k v s).2.2.1]
  exact set_size_le E k v hInv hle

theorem unset_of_some_facts (E : Ext K O) (k : K) {s : LRU K O}
    {nd : Node O} (hl : alookup k s.cache = some nd) :
    (unset E k s).cache = adel k s.cache ∧
    (unset E k s).order = s.order.erase k ∧
    (unset E k s).size = s.size - 1 ∧
    (unset E k s).evts =
      (if s.hasOnEvicted then
        (k, valueOut E s nd.storedValue) :: s.evts else s.evts) := by
  unfold unset
  rw [hl]
  rcases hR : s.redis with _ | store <;>
    by_cases hE : s.hasOnEvicted = true <;>
      by_cases hW : s.writeThrough = true <;>
        refine ⟨?_, ?_, ?_, ?_⟩ <;> simp [hE, hW, hR] <;> rfl

theorem unset_of_none_facts (E : Ext K O) (k : K) {s : LRU K O}
    (hl : alookup k s.cache = none) :
    (unset E k s).cache = s.cache ∧ (unset E k s).order = s.order ∧
    (unset E k s).size = s.size ∧ (unset E k s).evts = s.evts := by
  unfold unset
  rw [hl]
  rcases hR : s.redis with _ | store <;>
    by_cases hW : s.writeThrough = true <;>
      refine ⟨?_, ?_, ?_, ?_⟩ <;> simp [hW, hR] <;> rfl

theorem set_evts_of_some (E : Ext K O) (k : K) (v : Value O)
    {s : LRU K O} {nd : Node O} (hl : alookup k s.cache = some nd) :
    (set E k v s).evts = s.evts := by
  rw [set_eq_of_some E v hl]
  obtain ⟨r, hr⟩ := redisMirror_exists E k (procOf E v s) _
  rw [hr]

theorem set_evts_of_none_no_evict (E : Ext K O) (k : K) (v : Value O)
    {s : LRU K O} (hl : alookup k s.cache = none)
    (hle : ¬ ((s.size + 1 : Int) > s.capacity)) :
    (set E k v s).evts = s.evts := by
  rw [set_eq_of_none E v hl]
  obtain ⟨r, hr⟩ := redisMirror_exists E k (procOf E v s) _
  rw [hr]
  rw [show (evictIfNeeded E
    { s with valueType := tagAfter v s,
             cache := aset k ⟨procOf E v s, s.now⟩ s.cache,
             order := k :: s.order, size := s.size + 1 } : LRU K O) = _
    from evictIfNeeded_eq_of_le E (by simpa using hle)]

theorem set_evts_of_none_evict (E : Ext K O) (k : K) (v : Value O)
    {s : LRU K O} {t : K} {nd : Node O}
    (hcb : s.hasOnEvicted = true) (hl : alookup k s.cache = none)
    (hgt : (s.size + 1 : Int) > s.capacity)
    (ht : s.order.getLast? = some t)
    (hnd : alookup t s.cache = some nd) :
    (set E k v s).evts =
      (t, valueOut E { s with valueType := tagAfter v s }
        nd.storedValue) :: s.evts := by
  have htk : t ≠ k := by
    intro h
    subst h
    rw [hl] at hnd
    exact Option.noConfusion hnd
  rw [set_eq_of_none E v hl]
  obtain ⟨r, hr⟩ := redisMirror_exists E k (procOf E v s) _
  rw [hr]
  set s' : LRU K O :=
    { s with valueType := tagAfter v s,
             cache := aset k ⟨procOf E v s, s.now⟩ s.cache,
             order := k :: s.order, size := s.size + 1 } with hs'
  show (evictIfNeeded E s').evts = _
  have hnd' : alookup t s'.cache = some nd := by
    show alookup t (aset k ⟨procOf E v s, s.now⟩ s.cache) = some nd
    rw [alookup_aset_ne (Ne.symm htk)]
    exact hnd
  rw [evictIfNeeded_eq_of_gt E (by simpa [hs'] using hgt)
    (by simpa [hs'] using getLast?_cons_of_some (a := k) ht) hnd']
  rw [if_pos (show s'.hasOnEvicted = true from hcb)]
  rfl

/-- C6: the eviction callback fires exactly once per removed entry, with
the key and the reverse-transformed value: once on each over-capacity
eviction (the current tail), once on each `unset` of a present key (which
also decrements `size`); a within-capacity insert, an overwrite of an
existing key, and an `unset` of an absent key invoke it zero times, the
last leaving the map, the order and the size untouched. -/
theorem eviction_callback_exactly_once (E : Ext K O) (k t : K)
    (v : Value O) (s : LRU K O) (nd : Node O) :
    (s.hasOnEvicted = true → alookup k s.cache = none →
      (s.size + 1 : Int) > s.capacity → s.order.getLast? = some t →
      alookup t s.cache = some nd →
      (set E k v s).evts =
        (t, valueOut E { s with valueType := tagAfter v s }
          nd.storedValue) :: s.evts) ∧
    (alookup k s.cache = none → ¬ ((s.size + 1 : Int) > s.capacity) →
      (set E k v s).evts = s.evts) ∧
    (alookup k s.cache = some nd → (set E k v s).evts = s.evts) ∧
    (s.hasOnEvicted = true → alookup k s.cache = some nd →
      (unset E k s).evts = (k, valueOut E s nd.storedValue) :: s.evts ∧
      (unset E k s).size = s.size - 1) ∧
    (alookup k s.cache = none →
      (unset E k s).cache = s.cache ∧ (unset E k s).order = s.order ∧
      (unset E k s).size = s.size ∧ (unset E k s).evts = s.evts) := by
  refine ⟨?_, ?_, ?_, ?_, ?_⟩
  · intro hcb hl hgt ht hnd
    exact set_evts_of_none_evict E k v hcb hl hgt ht hnd
  · intro hl hle
    exact set_evts_of_none_no_evict E k v hl hle
  · intro hl
    exact set_evts_of_some E k v hl
  · intro hcb hl
    have h4 := unset_of_some_facts E k hl
    refine ⟨?_, h4.2.2.1⟩
    rw [h4.2.2.2, if_pos hcb]
  · intro hl
    exact unset_of_none_facts E k hl

/-! ### Recency order tracking -/

theorem has_fst (k : K) (s : LRU K O) :
    (has k s).1 = (alookup k s.cache).isSome := by
  unfold has
  split <;> simp_all

theorem lookup_none_of_not_mem_order {s : LRU K O} (hInv : Inv s)
    {q : K} (h : q ∉ s.order) : alookup q s.cache = none :=
  Option.not_isSome_iff_eq_none.mp
    (fun hs => h ((hInv.mem_iff q).mpr hs))

theorem adel_of_none {α : Type} {q : K} {l : List (K × α)}
    (h : alookup q l = none) : adel q l = l := by
  induction l with
  | nil => rfl
  | cons p rest ih =>
    obtain ⟨k', v'⟩ := p
    by_cases hk : k' = q
    · subst hk
      simp [alookup] at h
    · simp only [alookup, if_neg hk] at h
      simp [adel, hk, ih h]

theorem alookup_adel_of_none {α : Type} {q t : K} {l : List (K × α)}
    (h : alookup q l = none) : alookup q (adel t l) = none := by
  by_cases hq : q = t
  · subst hq
    rw [adel_of_none h]
    exact h
  · rw [alookup_adel_ne (Ne.symm hq)]
    exact h

/-- Erasing the last element of a duplicate-free list drops the last
element. -/
theorem nodup_erase_getLast {l : List K} (hnd : l.Nodup) {t : K}
    (ht : l.getLast? = some t) : l.erase t = l.dropLast := by
  induction l with
  | nil => simp at ht
  | cons a m ih =>
    cases m with
    | nil =>
      simp only [List.getLast?_singleton, Option.some.injEq] at ht
      subst ht
      simp
    | cons b m2 =>
      rw [List.getLast?_cons_cons] at ht
      have htm : t ∈ b :: m2 := List.mem_of_getLast?_eq_some ht
      have hta : ¬ (a == t) = true := by
        simp only [beq_iff_eq]
        intro h
        subst h
        exact (List.nodup_cons.mp hnd).1 htm
      rw [List.erase_cons_tail hta, ih (List.nodup_cons.mp hnd).2 ht]
      rfl

/-- The recency order after a fresh insert: the new key at the head, and
the tail dropped exactly when the insert went over capacity. -/
theorem set_order_of_none (E : Ext K O) (k : K) (v : Value O)
    {s : LRU K O} (hInv : Inv s) (hl : alookup k s.cache = none) :
    (set E k v s).order =
      if (s.size + 1 : Int) > s.capacity then (k :: s.order).dropLast
      else k :: s.order := by
  have hknot : k ∉ s.order := by
    rw [hInv.mem_iff k, hl]
    simp
  rw [set_eq_of_none E v hl]
  set s' : LRU K O :=
    { s with valueType := tagAfter v s,
             cache := aset k ⟨procOf E v s, s.now⟩ s.cache,
             order := k :: s.order, size := s.size + 1 } with hs'
  obtain ⟨r, hr⟩ := redisMirror_exists E k (procOf E v s)
    (evictIfNeeded E s')
  rw [hr]
  show (evictIfNeeded E s').order = _
  by_cases hgt : (s.size + 1 : Int) > s.capacity
  · rw [if_pos hgt]
    obtain ⟨t, ht⟩ := Option.isSome_iff_exists.mp
      (List.getLast?_isSome.mpr (show (k :: s.order) ≠ [] by simp))
    have htm : t ∈ k :: s.order := List.mem_of_getLast?_eq_some ht
    have hts : (alookup t s'.cache).isSome := by
      rcases List.mem_cons.mp htm with h | h
      · subst h
        simp [hs', alookup_aset_self]
      · by_cases hk : t = k
        · subst hk
          simp [hs', alookup_aset_self]
        · have := (hInv.mem_iff t).mp h
          simpa [hs', alookup_aset_ne (fun hx => hk hx.symm)] using this
    obtain ⟨nd, hnd⟩ := Option.isSome_iff_exists.mp hts
    rw [evictIfNeeded_eq_of_gt E (by simpa [hs'] using hgt)
      (by simpa [hs'] using ht) hnd]
    have herase : (k :: s.order).erase t = (k :: s.order).dropLast :=
      nodup_erase_getLast (List.nodup_cons.mpr ⟨hknot, hInv.nodupOrder⟩) ht
    split
    · simpa [hs'] using herase
    · simpa [hs'] using herase
  · rw [if_neg hgt, evictIfNeeded_eq_of_le E (by simpa [hs'] using hgt)]

/-- A key distinct from the written one and absent before stays absent. -/
theorem set_lookup_none_of_ne (E : Ext K O) (k : K) (v : Value O)
    {s : LRU K O} {q : K} (hq : q ≠ k)
    (hqs : alookup q s.cache = none) :
    alookup q (set E k v s).cache = none := by
  cases hl : alookup k s.cache with
  | some nd =>
    rw [set_eq_of_some E v hl]
    obtain ⟨r, hr⟩ := redisMirror_exists E k (procOf E v s) _
    rw [hr]
    show alookup q (aset k ⟨procOf E v s, s.now⟩ s.cache) = none
    rw [alookup_aset_ne (Ne.symm hq)]
    exact hqs
  | none =>
    rw [set_eq_of_none E v hl]
    set s' : LRU K O :=
      { s with valueType := tagAfter v s,
               cache := aset k ⟨procOf E v s, s.now⟩ s.cache,
               order := k :: s.order, size := s.size + 1 } with hs'
    obtain ⟨r, hr⟩ := redisMirror_exists E k (procOf E v s)
      (evictIfNeeded E s')
    rw [hr]
    show alookup q (evictIfNeeded E s').cache = none
    have hq' : alookup q s'.cache = none := by
      show alookup q (aset k ⟨procOf E v s, s.now⟩ s.cache) = none
      rw [alookup_aset_ne (Ne.symm hq)]
      exact hqs
    by_cases hgt : (s.size + 1 : Int) > s.capacity
    · cases ht : (k :: s.order).getLast? with
      | none => simp at ht
      | some t =>
        cases hnd : alookup t s'.cache with
        | some nd =>
          rw [evictIfNeeded_eq_of_gt E (by simpa [hs'] using hgt)
            (by simpa [hs'] using ht) hnd]
          have : alookup q (adel t s'.cache) = none :=
            alookup_adel_of_none hq'
          split
          · exact this
          · exact this
        | none =>
          rw [evictIfNeeded_eq_of_gt_none E (by simpa [hs'] using hgt)
            (by simpa [hs'] using ht) hnd]
          exact alookup_adel_of_none hq'
    · rw [evictIfNeeded_eq_of_le E (by simpa [hs'] using hgt)]
      exact hq'

theorem get_order_of_some (E : Ext K O) (k : K) {s : LRU K O}
    {nd : Node O} (hl : alookup k s.cache = some nd) :
    (get E k s).2.order = k :: s.order.erase k ∧
    (get E k s).2.size = s.size ∧
    (get E k s).2.capacity = s.capacity := by
  rw [get_eq_of_some E k hl]
  rw [moveToHead_eq (show alookup k
    ({ s with hits := s.hits + 1 } : LRU K O).cache = some nd from hl)]
  exact ⟨rfl, rfl, rfl⟩

theorem take_append_take (xs ys : List K) (c : Nat) :
    (xs ++ ys.take c).take c = (xs ++ ys).take c := by
  rw [List.take_append_eq_append_take, List.take_append_eq_append_take,
    List.take_take, Nat.min_eq_left (Nat.sub_le c xs.length)]

/-- A sequence of `set` calls, processed one at a time. -/
def setAll (E : Ext K O) (kvs : List (K × Value O)) (s : LRU K O) :
    LRU K O :=
  kvs.foldl (fun t p => set E p.1 p.2 t) s

theorem setAll_cons (E : Ext K O) (p : K × Value O)
    (kvs : List (K × Value O)) (s : LRU K O) :
    setAll E (p :: kvs) s = setAll E kvs (set E p.1 p.2 s) := rfl

/-- Folding fresh distinct keys into a cache of capacity `c` leaves the
most recent `c` of them as the recency order: each over-capacity insert
drops exactly the then-current tail. -/
theorem setAll_fresh (E : Ext K O) (c : Nat) (kvs : List (K × Value O)) :
    ∀ (s : LRU K O), Inv s → s.capacity = (c : Int) →
      s.order.length ≤ c →
      (∀ p ∈ kvs, alookup p.1 s.cache = none) →
      (kvs.map Prod.fst).Nodup →
      Inv (setAll E kvs s) ∧
      (setAll E kvs s).order =
        ((kvs.map Prod.fst).reverse ++ s.order).take c := by
  induction kvs with
  | nil =>
    intro s hInv hcap hlen hfresh hnd
    exact ⟨hInv, by simp [setAll, List.take_of_length_le hlen]⟩
  | cons p kvs ih =>
    intro s hInv hcap hlen hfresh hnd
    obtain ⟨k, v⟩ := p
    rw [setAll_cons]
    have hl : alookup k s.cache = none := hfresh (k, v) (by simp)
    have hIn1 : Inv (set E k v s) := inv_set E k v hInv
    have hcap1 : (set E k v s).capacity = (c : Int) := by
      rw [(set_frame E k v s).2.2.1, hcap]
    have horder1 := set_order_of_none E k v hInv hl
    have hndc : k ∉ kvs.map Prod.fst ∧ (kvs.map Prod.fst).Nodup :=
      List.nodup_cons.mp (by simpa using hnd)
    have hsz : (set E k v s).order.length ≤ c := by
      by_cases hgt : (s.size + 1 : Int) > s.capacity
      · rw [horder1, if_pos hgt]
        simpa using hlen
      · rw [horder1, if_neg hgt]
        have h1 := hInv.sizeOrder
        rw [hcap] at hgt
        simp only [List.length_cons]
        omega
    have hfresh1 : ∀ q ∈ kvs, alookup q.1 (set E k v s).cache = none := by
      intro q hq
      have hqk : q.1 ≠ k := by
        intro h
        exact hndc.1 (h ▸ List.mem_map_of_mem Prod.fst hq)
      exact set_lookup_none_of_ne E k v hqk (hfresh q (by simp [hq]))
    obtain ⟨hInvF, hordF⟩ :=
      ih (set E k v s) hIn1 hcap1 hsz hfresh1 hndc.2
    refine ⟨hInvF, ?_⟩
    rw [hordF]
    by_cases hgt : (s.size + 1 : Int) > s.capacity
    · have hlc : s.order.length = c := by
        have h1 := hInv.sizeOrder
        rw [hcap] at hgt
        omega
      have hdl : (k :: s.order).dropLast = ([k] ++ s.order).take c := by
        rw [List.dropLast_eq_take]
        simp [hlc]
      rw [horder1, if_pos hgt, hdl, take_append_take]
      congr 1
      rw [List.map_cons, List.reverse_cons, List.append_assoc]
    · rw [horder1, if_neg hgt]
      congr 1
      rw [List.map_cons, List.reverse_cons, List.append_assoc]
      rfl

/-- C2: with capacity `N ≥ 1`, performing `N + 1` sequential `set` calls
with pairwise-distinct keys on a fresh cache (no intervening gets) evicts
exactly the first-inserted key — each over-capacity insert synchronously
drops the then-current tail, and only it — leaving the other `N` keys
resident. -/
theorem lru_evicts_exactly_first_key (E : Ext K O) (c : Nat) (hc : 1 ≤ c)
    (q : K) (w : Value O) (rest : List (K × Value O))
    (hlen : rest.length = c)
    (hnd : (((q, w) :: rest).map Prod.fst).Nodup)
    (cmp enc cb : Bool) :
    (has q (setAll E ((q, w) :: rest)
      (initLRU (c : Int) cmp enc cb))).1 = false ∧
    ∀ p ∈ rest, (has p.1 (setAll E ((q, w) :: rest)
      (initLRU (c : Int) cmp enc cb))).1 = true := by
  obtain ⟨hInvF, hordF⟩ := setAll_fresh E c ((q, w) :: rest)
    (initLRU (c : Int) cmp enc cb) (inv_initLRU _ cmp enc cb) rfl
    (by simp [initLRU]) (fun p hp => rfl) hnd
  have hord : (setAll E ((q, w) :: rest)
      (initLRU (c : Int) cmp enc cb)).order =
      (rest.map Prod.fst).reverse := by
    rw [hordF]
    simp only [initLRU, List.map_cons, List.reverse_cons, List.append_nil]
    exact List.take_left' (by simp [hlen])
  have hndc : q ∉ rest.map Prod.fst ∧ (rest.map Prod.fst).Nodup :=
    List.nodup_cons.mp (by simpa using hnd)
  constructor
  · rw [has_fst, lookup_none_of_not_mem_order hInvF ?_]
    · rfl
    · rw [hord, List.mem_reverse]
      exact hndc.1
  · intro p hp
    rw [has_fst]
    exact (hInvF.mem_iff p.1).mp
      (by rw [hord, List.mem_reverse]; exact List.mem_map_of_mem Prod.fst hp)

/-- C5 counterexample: the constructor accepts a zero capacity — there is
no capacity validation, only the write-through check. -/
theorem mk_accepts_capacity_zero :
    (mkSuperLRU (K := Nat) (O := Unit)
      { maxSize := 0 } [] [] [] 0).isOk = true := rfl

/-- C5 (amended): construction fails exactly when `writeThrough` is
requested without `redisConfig`; the capacity is never validated, so
non-positive capacities are accepted at construction. -/
theorem mk_error_iff_writeThrough_without_redis (opts : Options)
    (rndIV rndKey : List Nat) (store₀ : List (String × String))
    (clock : Nat) :
    (∃ msg, mkSuperLRU (K := K) (O := O) opts rndIV rndKey store₀ clock =
      Except.error msg) ↔
    (opts.writeThrough = true ∧ opts.redisConfig = none) := by
  unfold mkSuperLRU
  split
  · rename_i h
    exact ⟨fun _ => ⟨h.1, h.2⟩, fun _ => ⟨_, rfl⟩⟩
  · rename_i h
    constructor
    · rintro ⟨msg, hmsg⟩
      exact Except.noConfusion hmsg
    · intro hw
      exact absurd ⟨hw.1, hw.2⟩ h

/-- C3: a `get` hit promotes the accessed entry to most-recently-used:
with capacity 3, after `set a; set b; set c; get a; set d` (distinct
keys), key `b` is evicted while `a`, `c` and `d` remain resident. -/
theorem get_promotes_to_mru (E : Ext K O) (a b c' d : K)
    (va vb vc vd : Value O) (cmp enc cb : Bool)
    (hab : a ≠ b) (hac : a ≠ c') (had : a ≠ d)
    (hbc : b ≠ c') (hbd : b ≠ d) (hcd : c' ≠ d) :
    (has b (set E d vd ((get E a (set E c' vc (set E b vb
      (set E a va (initLRU (K := K) (O := O) 3 cmp enc cb))))).2))).1 =
      false ∧
    (has a (set E d vd ((get E a (set E c' vc (set E b vb
      (set E a va (initLRU (K := K) (O := O) 3 cmp enc cb))))).2))).1 =
      true ∧
    (has c' (set E d vd ((get E a (set E c' vc (set E b vb
      (set E a va (initLRU (K := K) (O := O) 3 cmp enc cb))))).2))).1 =
      true ∧
    (has d (set E d vd ((get E a (set E c' vc (set E b vb
      (set E a va (initLRU (K := K) (O := O) 3 cmp enc cb))))).2))).1 =
      true := by
  have hInv0 : Inv (initLRU (K := K) (O := O) 3 cmp enc cb) :=
    inv_initLRU 3 cmp enc cb
  -- step 1: set a on the empty cache; order becomes [a]
  have ho1 : (set E a va (initLRU (K := K) (O := O) 3 cmp enc cb)).order
      = [a] := by
    rw [set_order_of_none E a va hInv0 rfl, if_neg (by norm_num [initLRU])]
    simp [initLRU]
  have hInv1 := inv_set E a va hInv0
  have hsz1 : (set E a va (initLRU (K := K) (O := O) 3 cmp enc cb)).size
      = 1 := by
    rw [hInv1.sizeOrder, ho1]
    rfl
  have hcap1 : (set E a va
      (initLRU (K := K) (O := O) 3 cmp enc cb)).capacity = 3 :=
    (set_frame E a va _).2.2.1
  -- step 2: set b; order becomes [b, a]
  have hl1 : alookup b (set E a va
      (initLRU (K := K) (O := O) 3 cmp enc cb)).cache = none := by
    refine lookup_none_of_not_mem_order hInv1 ?_
    rw [ho1]
    simp [Ne.symm hab]
  have ho2 : (set E b vb (set E a va
      (initLRU (K := K) (O := O) 3 cmp enc cb))).order = [b, a] := by
    rw [set_order_of_none E b vb hInv1 hl1,
      if_neg (by rw [hsz1, hcap1]; norm_num), ho1]
  have hInv2 := inv_set E b vb hInv1
  have hsz2 : (set E b vb (set E a va
      (initLRU (K := K) (O := O) 3 cmp enc cb))).size = 2 := by
    rw [hInv2.sizeOrder, ho2]
    rfl
  have hcap2 : (set E b vb (set E a va
      (initLRU (K := K) (O := O) 3 cmp enc cb))).capacity = 3 := by
    rw [(set_frame E b vb _).2.2.1, hcap1]
  -- step 3: set c'; order becomes [c', b, a]
  have hl2 : alookup c' (set E b vb (set E a va
      (initLRU (K := K) (O := O) 3 cmp enc cb))).cache = none := by
    refine lookup_none_of_not_mem_order hInv2 ?_
    rw [ho2]
    simp [Ne.symm hac, Ne.symm hbc]
  have ho3 : (set E c' vc (set E b vb (set E a va
      (initLRU (K := K) (O := O) 3 cmp enc cb)))).order = [c', b, a] := by
    rw [set_order_of_none E c' vc hInv2 hl2,
      if_neg (by rw [hsz2, hcap2]; norm_num), ho2]
  have hInv3 := inv_set E c' vc hInv2
  have hsz3 : (set E c' vc (set E b vb (set E a va
      (initLRU (K := K) (O := O) 3 cmp enc cb)))).size = 3 := by
    rw [hInv3.sizeOrder, ho3]
    rfl
  have hcap3 : (set E c' vc (set E b vb (set E a va
      (initLRU (K := K) (O := O) 3 cmp enc cb)))).capacity = 3 := by
    rw [(set_frame E c' vc _).2.2.1, hcap2]
  -- step 4: get a, a hit; order becomes [a, c', b]
  obtain ⟨nda, hnda⟩ := Option.isSome_iff_exists.mp
    ((hInv3.mem_iff a).mp (by rw [ho3]; simp))
  have hget := get_order_of_some E a hnda
  have ho4 : (get E a (set E c' vc (set E b vb (set E a va
      (initLRU (K := K) (O := O) 3 cmp enc cb))))).2.order =
      [a, c', b] := by
    rw [hget.1, ho3, List.erase_cons_tail (by simpa using Ne.symm hac),
      List.erase_cons_tail (by simpa using Ne.symm hab),
      List.erase_cons_head]
  have hInv4 := inv_get E a hInv3
  have hsz4 : (get E a (set E c' vc (set E b vb (set E a va
      (initLRU (K := K) (O := O) 3 cmp enc cb))))).2.size = 3 := by
    rw [hget.2.1, hsz3]
  have hcap4 : (get E a (set E c' vc (set E b vb (set E a va
      (initLRU (K := K) (O := O) 3 cmp enc cb))))).2.capacity = 3 := by
    rw [hget.2.2, hcap3]
  -- step 5: set d, over capacity; b (the tail) is evicted
  have hl4 : alookup d (get E a (set E c' vc (set E b vb (set E a va
      (initLRU (K := K) (O := O) 3 cmp enc cb))))).2.cache = none := by
    refine lookup_none_of_not_mem_order hInv4 ?_
    rw [ho4]
    simp [Ne.symm had, Ne.symm hcd, Ne.symm hbd]
  have ho5 : (set E d vd ((get E a (set E c' vc (set E b vb (set E a va
      (initLRU (K := K) (O := O) 3 cmp enc cb))))).2)).order =
      [d, a, c'] := by
    rw [set_order_of_none E d vd hInv4 hl4,
      if_pos (by rw [hsz4, hcap4]; norm_num), ho4]
    rfl
  have hInv5 := inv_set E d vd hInv4
  refine ⟨?_, ?_, ?_, ?_⟩
  · rw [has_fst, lookup_none_of_not_mem_order hInv5 ?_]
    · rfl
    · rw [ho5]
      simp [hbd, Ne.symm hab, hbc]
  · rw [has_fst]
    exact (hInv5.mem_iff a).mp (by rw [ho5]; simp)
  · rw [has_fst]
    exact (hInv5.mem_iff c').mp (by rw [ho5]; simp)
  · rw [has_fst]
    exact (hInv5.mem_iff d).mp (by rw [ho5]; simp)

/-! ### A concrete external-function bundle for witnesses

The codec parameters only matter through their round-trip laws, so a
simple invertible tagged serializer (with unary integers) and identity
compression/cipher functions serve as a concrete instance. -/

/-- An injective text encoding of an integer (unary, with a sign mark). -/
def intChars : Int → List Char
  | .ofNat m => List.replicate m 'a'
  | .negSucc m => 'b' :: List.replicate m 'a'

/-- The decoder of `intChars`. -/
def charsInt (l : List Char) : Int :=
  match l with
  | [] => Int.ofNat 0
  | c :: rest =>
    if c = 'b' then Int.negSucc rest.length
    else Int.ofNat (rest.length + 1)

theorem charsInt_intChars (n : Int) : charsInt (intChars n) = n := by
  cases n with
  | ofNat m =>
    cases m with
    | zero => rfl
    | succ m2 => simp [intChars, charsInt, List.replicate_succ]
  | negSucc m => simp [intChars, charsInt]

/-- A concrete `Ext` over `Nat` keys and trivial object payloads: a
tagged invertible serializer, and identity gzip/base64/cipher
functions. -/
def extId : Ext Nat Unit where
  strRepr s := ⟨'s' :: s.data⟩
  numRepr n := ⟨'n' :: intChars n⟩
  objRepr _ := ⟨['o']⟩
  jparse s :=
    match s.data with
    | 's' :: rest => Value.VStr ⟨rest⟩
    | 'n' :: rest => Value.VNum (charsInt rest)
    | _ => Value.VObj ()
  gzipF := id
  gunzipF := id
  b64e := id
  b64d := id
  cipherOf _ := id
  decipherOf _ := id
  md5F n := ⟨'h' :: intChars (n : Int)⟩

theorem extId_jparse_stringify (u : Value Unit) :
    extId.jparse (jsonStringify extId u) = u := by
  cases u with
  | VStr s => rfl
  | VNum n =>
    have h : extId.jparse (jsonStringify extId (Value.VNum n)) =
        Value.VNum (charsInt (intChars n)) := rfl
    rw [h, charsInt_intChars]
  | VObj o =>
    cases o
    rfl

theorem set_then_get_roundtrip_witness :
    (get extId 0 (set extId 0 (Value.VNum 1)
      (initLRU 2 true true false))).1 = some (Value.VNum 1) :=
  set_then_get_roundtrip extId 0 (Value.VNum 1)
    (initLRU 2 true true false) (by decide)
    (inv_initLRU 2 true true false) extId_jparse_stringify
    (fun a => rfl) (fun a => rfl) (fun a => rfl) (Or.inl rfl)

theorem lru_evicts_exactly_first_key_witness :
    (has 0 (setAll extId
      ([(0, Value.VNum 0), (1, Value.VNum 1), (2, Value.VNum 2)] :
        List (Nat × Value Unit))
      (initLRU (2 : Int) false false false))).1 = false ∧
    ∀ p ∈ ([(1, Value.VNum 1), (2, Value.VNum 2)] :
        List (Nat × Value Unit)),
      (has p.1 (setAll extId
        ([(0, Value.VNum 0), (1, Value.VNum 1), (2, Value.VNum 2)] :
          List (Nat × Value Unit))
        (initLRU (2 : Int) false false false))).1 = true :=
  lru_evicts_exactly_first_key extId 2 (by decide) 0 (Value.VNum 0)
    ([(1, Value.VNum 1), (2, Value.VNum 2)] : List (Nat × Value Unit))
    (by decide) (by decide) false false false

theorem get_promotes_to_mru_witness :
    (has 1 (set extId 3 (Value.VNum 33) ((get extId 0 (set extId 2
      (Value.VNum 22) (set extId 1 (Value.VNum 11) (set extId 0
      (Value.VNum 0) (initLRU 3 false false false))))).2))).1 = false ∧
    (has 0 (set extId 3 (Value.VNum 33) ((get extId 0 (set extId 2
      (Value.VNum 22) (set extId 1 (Value.VNum 11) (set extId 0
      (Value.VNum 0) (initLRU 3 false false false))))).2))).1 = true ∧
    (has 2 (set extId 3 (Value.VNum 33) ((get extId 0 (set extId 2
      (Value.VNum 22) (set extId 1 (Value.VNum 11) (set extId 0
      (Value.VNum 0) (initLRU 3 false false false))))).2))).1 = true ∧
    (has 3 (set extId 3 (Value.VNum 33) ((get extId 0 (set extId 2
      (Value.VNum 22) (set extId 1 (Value.VNum 11) (set extId 0
      (Value.VNum 0) (initLRU 3 false false false))))).2))).1 = true :=
  get_promotes_to_mru extId 0 1 2 3 (Value.VNum 0) (Value.VNum 11)
    (Value.VNum 22) (Value.VNum 33) false false false (by decide)
    (by decide) (by decide) (by decide) (by decide) (by decide)

theorem ops_preserve_invariant_witness :
    Inv (set extId 5 (Value.VNum 7) (initLRU 2 true false false)) ∧
    (((set extId 5 (Value.VNum 7)
        (initLRU 2 true false false)).size : Int) ≤
      (set extId 5 (Value.VNum 7)
        (initLRU 2 true false false)).capacity) :=
  ⟨(ops_preserve_invariant extId 5 (Value.VNum 7) true
      (inv_initLRU 2 true false false)).2.2.1,
   (ops_preserve_invariant extId 5 (Value.VNum 7) true
      (inv_initLRU 2 true false false)).2.2.2.2.2
      (by decide) (by decide)⟩

theorem eviction_callback_exactly_once_witness :
    (set extId 7 (Value.VNum 2) (set extId 5 (Value.VNum 1)
      (initLRU 1 false false true))).evts = [(5, Value.VNum 1)] ∧
    (unset extId 5 (set extId 5 (Value.VNum 1)
      (initLRU 1 false false true))).evts = [(5, Value.VNum 1)] := by
  constructor
  · rw [(eviction_callback_exactly_once extId 7 5 (Value.VNum 2)
      (set extId 5 (Value.VNum 1) (initLRU 1 false false true))
      ⟨Value.VNum 1, 0⟩).1 (by decide) (by decide) (by decide)
      (by decide) (by decide)]
    decide
  · rw [((eviction_callback_exactly_once extId 5 5 (Value.VNum 9)
      (set extId 5 (Value.VNum 1) (initLRU 1 false false true))
      ⟨Value.VNum 1, 0⟩).2.2.2.1 (by decide) (by decide)).1]
    decide

theorem decompress_compress_canonical_witness :
    decompressValue extId (compressValue extId (Value.VNum 3)) =
      jsonStringify extId (Value.VNum 3) :=
  decompress_compress_canonical extId (Value.VNum 3)
    (fun a => rfl) (fun a => rfl)

theorem encryptValue_deterministic_witness :
    encryptValue extId (Value.VNum 4)
      ⟨"aes-256-cbc", List.replicate 16 0, List.replicate 32 0⟩ =
    encryptValue extId (Value.VNum 4)
      ⟨"aes-256-cbc", List.replicate 16 0, List.replicate 32 0⟩ :=
  encryptValue_deterministic extId
    ⟨"aes-256-cbc", List.replicate 16 0, List.replicate 32 0⟩
    ⟨"aes-256-cbc", List.replicate 16 0, List.replicate 32 0⟩
    (Value.VNum 4) (Value.VNum 4) rfl rfl

end SuperLRU
